import Mathlib

/-!
Verification of the ts-effect trampolined Effect interpreter.

Shallow embedding of the repository's core (`src/effect.ts`, `src/run.ts`,
`src/continuationStack.ts`) and of the helpers in `src/api.ts`
(`manage`, `all`, `fromPromise`).

Modelling decisions, mirroring the TypeScript source:

* The interpreter is untyped internally (`Effect<any,any>`, continuation
  functions `any → Effect<any,any>`), so the embedding uses one single
  dynamic value type `V` for both success values and error values.
* A JavaScript function with side effects (such as the `release` calls made
  inside the continuations built by `manage`) is modelled by a pair of pure
  functions: one giving the list of observable events emitted by the call,
  one giving the returned value.  Pure continuations emit `[]`.
* `sync` thunks may raise: a thunk is `Unit → Except V V`, where `.error`
  models a thrown exception.  `run` (run.ts) does not catch, so a raise
  aborts the loop; the machine records the thrown value and the continuation
  stack as it stands at that moment.
* A well-behaved `async` starter invokes its completion callback exactly
  once with some `Result`; it is therefore modelled by the delivered
  `Result` (the spec makes "exactly once" a caller obligation).
* The mutable array used as the continuation stack (top = end of the array)
  is modelled as a `List` whose head is the top of the stack; `push` is
  cons and `pop` takes the head.
-/

/-- The `Either<E,A>` type from `src/either.ts`: `failure` / `success` are the two
constructors.  The interpreter uses it at `Result V V` (dynamic typing). -/
inductive Result (E A : Type) where
  | success (a : A)
  | failure (e : E)
deriving DecidableEq, Repr

/-- The closed instruction set of `Effect<E,A>` (`src/api.ts` classes,
tag strings in `src/effect.ts`).  `Ev` is the alphabet of observable side
events of continuation calls, `V` the dynamic value type. -/
inductive Effect (Ev V : Type) where
  /-- Tag `SucceedEffect`: already has a result. -/
  | succeed (v : V)
  /-- Tag `SyncEffect`: deferred synchronous thunk; `.error` models a raise. -/
  | sync (thunk : Unit → Except V V)
  /-- Tag `AsyncEffect` whose starter is well behaved: it eventually calls its
  completion callback exactly once, with this `Result`. -/
  | asyncE (r : Result V V)
  /-- Tag `FlatMapEffect`: run `src`, feed its success value to the continuation.
  `kev v` is the list of events emitted by calling the continuation at `v`,
  `k v` the Effect it returns. -/
  | flatMapE (src : Effect Ev V) (kev : V → List Ev) (k : V → Effect Ev V)
  /-- Tag `FailEffect`: already failed. -/
  | failE (err : V)
  /-- Tag `RecoverEffect`: run `src`, feed its failure to the handler. -/
  | recoverE (src : Effect Ev V) (hev : V → List Ev) (h : V → Effect Ev V)

/-- The `type` tag of a continuation (`'Success' | 'Failure'`,
`src/continuationStack.ts`). -/
inductive Ckind where
  | success
  | failure
deriving DecidableEq, Repr

/-- A `Continuation` entry: `{type, f}` from `src/continuationStack.ts`,
with the call events of `f` split out into `fev`. -/
structure Frame (Ev V : Type) where
  kind : Ckind
  fev : V → List Ev
  f : V → Effect Ev V

/-- Method `ContinuationStack.nextContinuation` (`src/continuationStack.ts`):
pop entries from the top, discarding every entry whose kind does not match,
until a matching entry is found or the stack is exhausted.  Returns the
found entry (if any) together with the stack as left by the pops. -/
def nextContinuation (ty : Ckind) : List (Frame Ev V) → Option (Frame Ev V) × List (Frame Ev V)
  | [] => (none, [])
  | fr :: rest => if fr.kind = ty then (some fr, rest) else nextContinuation ty rest

/-- One iteration of the `run` loop can continue with a new current
instruction, terminate by invoking the completion callback, or abort
because an uncaught exception propagated out (`run.ts` catches nothing). -/
inductive StepRes (Ev V : Type) where
  | next (e : Effect Ev V) (stack : List (Frame Ev V)) (evs : List Ev)
  | done (r : Result V V)
  | raised (err : V) (stack : List (Frame Ev V))

/-- One iteration of the `while (current !== null)` loop of `run`
(`src/run.ts`).  The `asyncE` case is the resumption callback of the
`AsyncEffect` branch: it folds over the delivered result and continues with
`nextSuccess` / `nextFailure` on the same stack (in the source this happens
through a re-entrant call to `run`; the state transition is identical).
In the `sync` case the source pops `stack.nextSuccess()` *before*
evaluating the thunk, which is reproduced here exactly. -/
def step : Effect Ev V → List (Frame Ev V) → StepRes Ev V
  | .succeed v, stack =>
      match nextContinuation .success stack with
      | (some fr, rest) => .next (fr.f v) rest (fr.fev v)
      | (none, _) => .done (.success v)
  | .sync thunk, stack =>
      match nextContinuation .success stack, thunk () with
      | (some fr, rest), .ok v => .next (fr.f v) rest (fr.fev v)
      | (some _, rest), .error err => .raised err rest
      | (none, _), .ok v => .done (.success v)
      | (none, rest), .error err => .raised err rest
  | .asyncE r, stack =>
      match r with
      | .success a =>
          match nextContinuation .success stack with
          | (some fr, rest) => .next (fr.f a) rest (fr.fev a)
          | (none, _) => .done (.success a)
      | .failure err =>
          match nextContinuation .failure stack with
          | (some fr, rest) => .next (fr.f err) rest (fr.fev err)
          | (none, _) => .done (.failure err)
  | .flatMapE src kev k, stack => .next src (⟨.success, kev, k⟩ :: stack) []
  | .failE err, stack =>
      match nextContinuation .failure stack with
      | (some fr, rest) => .next (fr.f err) rest (fr.fev err)
      | (none, _) => .done (.failure err)
  | .recoverE src hev h, stack => .next src (⟨.failure, hev, h⟩ :: stack) []

/-- Terminal observation of one invocation of `run`: either the completion
callback was invoked with a `Result` (having emitted `log`), or an uncaught
exception aborted the loop with the given continuation stack remaining. -/
inductive RunRes (Ev V : Type) where
  | completed (r : Result V V) (log : List Ev)
  | raisedR (err : V) (stack : List (Frame Ev V)) (log : List Ev)

/-- The `run` loop of `src/run.ts`, fuelled.  Each iteration applies the
non-recursive `step`; the loop itself is a single tail recursion, so the
native call-stack depth during interpretation is constant (independent of
the FlatMap/Recover tree being processed). -/
def runLoop : Nat → Effect Ev V → List (Frame Ev V) → List Ev → Option (RunRes Ev V)
  | 0, _, _, _ => none
  | n + 1, e, stack, log =>
      match step e stack with
      | .next e' s' evs => runLoop n e' s' (log ++ evs)
      | .done r => some (.completed r log)
      | .raised err s' => some (.raisedR err s' log)

/-- Outcome of evaluating one Effect in isolation: completion with a
`Result`, or an uncaught raise. -/
inductive Outcome (V : Type) where
  | completed (r : Result V V)
  | raised (err : V)
deriving DecidableEq, Repr

/-- Denotation of an Effect: the events emitted along the executed path and
the outcome.  This is the compositional reading of the instruction set
(§3/§4.3 of the spec); `runLoop` is proved to realise it. -/
def evalE : Effect Ev V → List Ev × Outcome V
  | .succeed v => ([], .completed (.success v))
  | .sync thunk =>
      match thunk () with
      | .ok v => ([], .completed (.success v))
      | .error err => ([], .raised err)
  | .asyncE r => ([], .completed r)
  | .failE err => ([], .completed (.failure err))
  | .flatMapE src kev k =>
      match evalE src with
      | (evs, .completed (.success v)) =>
          let p := evalE (k v)
          (evs ++ (kev v ++ p.1), p.2)
      | (evs, o) => (evs, o)
  | .recoverE src hev h =>
      match evalE src with
      | (evs, .completed (.failure err)) =>
          let p := evalE (h err)
          (evs ++ (hev err ++ p.1), p.2)
      | (evs, o) => (evs, o)

/-- An Effect none of whose reachable `sync` thunks raises. -/
inductive NoRaise : Effect Ev V → Prop where
  | succeed {v} : NoRaise (.succeed v)
  | sync {thunk} (h : ∃ v, thunk () = Except.ok v) : NoRaise (.sync thunk)
  | asyncE {r} : NoRaise (.asyncE r)
  | failE {err} : NoRaise (.failE err)
  | flatMapE {src kev k} (hs : NoRaise src) (hk : ∀ v, NoRaise (k v)) :
      NoRaise (.flatMapE src kev k)
  | recoverE {src hev h} (hs : NoRaise src) (hh : ∀ v, NoRaise (h v)) :
      NoRaise (.recoverE src hev h)

/-- The machine started on `(e, stack)` with event log `log` eventually
returns `res` (for some fuel). -/
def Reaches (e : Effect Ev V) (stack : List (Frame Ev V)) (log : List Ev)
    (res : RunRes Ev V) : Prop :=
  ∃ n, runLoop n e stack log = some res

/-- Feeding a terminal `Result` back into the loop is running the
instruction that carries it. -/
def inject (r : Result V V) : Effect Ev V :=
  match r with
  | .success v => .succeed v
  | .failure err => .failE err

/-- The chain `succeed(0).flatMap(x => succeed(x+1)).flatMap(...)` of `N`
flatMap (sequencing) operations, containing no Async instruction
(`examples/stackSafety.ts` builds exactly this shape). -/
def chain : Nat → Effect Unit Nat
  | 0 => .succeed 0
  | n + 1 => .flatMapE (chain n) (fun _ => []) (fun x => .succeed (x + 1))

/-- Method `Effect.map` from `src/effect.ts`: `flatMap(this, a => succeed(f(a)))`;
`fev` carries the call events of the (possibly impure) mapped function. -/
def mapEff (e : Effect Ev V) (fev : V → List Ev) (f : V → V) : Effect Ev V :=
  .flatMapE e fev (fun a => .succeed (f a))

/-- Method `Effect.mapError` from `src/effect.ts`:
`recover(this, e => fail(f(e)))`. -/
def mapErrorEff (e : Effect Ev V) (fev : V → List Ev) (f : V → V) : Effect Ev V :=
  .recoverE e fev (fun err => .failE (f err))

/-- Method `Effect.recover` (simple recovery) from `src/effect.ts`:
`recover(this, e => succeed(f(e)))`. -/
def recoverEff (e : Effect Ev V) (f : V → V) : Effect Ev V :=
  .recoverE e (fun _ => []) (fun err => .succeed (f err))

/-- Modelled from the spec (§4.3, Sync case), for comparison with the
source's `step`: "evaluate thunk() to get v; pop `nextSuccess`", so that
the continuation stack is still untouched at the moment the thunk runs and
a raise propagates with the stack unscanned. -/
def stepSyncSpec (thunk : Unit → Except V V) (stack : List (Frame Ev V)) : StepRes Ev V :=
  match thunk () with
  | .error err => .raised err stack
  | .ok v =>
      match nextContinuation .success stack with
      | (some fr, rest) => .next (fr.f v) rest (fr.fev v)
      | (none, _) => .done (.success v)

/-- Helper `manage` from `src/api.ts` (lines 198-215):
`acquire.flatMap(a => try { f(a).map(b => {release(a); b}).mapError(err =>
{release(a); err}) } catch (err) { release(a); fail(err) })`.
The body-producing function `f` may raise synchronously while constructing
the body effect (modelled by `Except.error`); `manage`'s own try/catch in
the continuation converts that — after releasing — into `fail`.  A call of
the side-effecting `release` procedure is the event `releaseEv a`. -/
def manage (acquire : Effect Ev V) (releaseEv : V → Ev)
    (f : V → Except V (Effect Ev V)) : Effect Ev V :=
  .flatMapE acquire
    (fun a =>
      match f a with
      | .ok _ => []
      | .error _ => [releaseEv a])
    (fun a =>
      match f a with
      | .ok body =>
          mapErrorEff (mapEff body (fun _ => [releaseEv a]) (fun b => b))
            (fun _ => [releaseEv a]) (fun err => err)
      | .error err => .failE err)

/-- The mutable state closed over by `all`'s child completion callbacks
(`src/api.ts` lines 219-233): the `hasFailed` flag and the success
`buffer`, plus — as the observation — the list of invocations of
`completeAll` made so far. -/
structure AllState (V : Type) where
  hasFailed : Bool
  buffer : List V
  calls : List (Result V (List V))
deriving DecidableEq, Repr

/-- The completion callback `all` registers on each child's run
(`src/api.ts`): on a success, if not `hasFailed`, push the value onto the
buffer and invoke `completeAll(right(buffer))` when the buffer reaches
`arr.length`; on a failure, set `hasFailed` and invoke
`completeAll(left(err))` (note: unconditionally). -/
def allCallback (n : Nat) (st : AllState V) (r : Result V V) : AllState V :=
  match r with
  | .success a =>
      if st.hasFailed then st
      else
        let buf := st.buffer ++ [a]
        { hasFailed := st.hasFailed
          buffer := buf
          calls := st.calls ++ if buf.length = n then [.success buf] else [] }
  | .failure err =>
      { hasFailed := true, buffer := st.buffer, calls := st.calls ++ [.failure err] }

/-- Deliver the children's results to `all`'s callback in their arrival
order (`n` is the number of children). -/
def allProcess (n : Nat) (st : AllState V) (rs : List (Result V V)) : AllState V :=
  rs.foldl (allCallback n) st

/-- Helper `all(arr)` (`src/api.ts`): every child's run is started independently,
each on its own continuation stack; child `i` eventually delivers
`results[i]` to the shared callback.  `arrival` is the order in which the
children's completions fire: synchronous children complete during the
`forEach` in input order, while an Async child (e.g. one built from a
promise) completes only later, so arrival order need not be input order. -/
def allRun (results : List (Result V V)) (arrival : List Nat) : AllState V :=
  allProcess results.length ⟨false, [], []⟩ (arrival.filterMap fun i => results[i]?)

/-- The starter that `fromPromise` passes to `async` (`src/api.ts` lines
185-189), observed as the list of arguments it passes to the `complete`
callback, as a function of the promise's eventual outcome.  On resolution
with `a` the `.then` handler calls `complete(right(a))`.  On rejection with
`err` the `.catch` handler evaluates `left(err)` and returns it to the
promise chain — it never passes it to `complete`. -/
def fromPromiseCompleteCalls (outcome : Result V V) : List (Result V V) :=
  match outcome with
  | .success a => [Result.success a]
  | .failure err =>
      let _discardedValue := Result.failure (A := V) err
      []

theorem runLoop_mono {e : Effect Ev V} {stack log res} :
    ∀ {n m : Nat}, runLoop n e stack log = some res → n ≤ m →
      runLoop m e stack log = some res := by
  intro n
  induction n generalizing e stack log with
  | zero => intro m h; simp [runLoop] at h
  | succ k ih =>
      intro m h hle
      cases m with
      | zero => omega
      | succ m' =>
          rw [runLoop] at h ⊢
          cases hs : step e stack with
          | next e' s' evs =>
              rw [hs] at h
              exact ih h (by omega)
          | done r => rw [hs] at h; exact h
          | raised err s' => rw [hs] at h; exact h

theorem reaches_unique {e : Effect Ev V} {stack log res₁ res₂}
    (h₁ : Reaches e stack log res₁) (h₂ : Reaches e stack log res₂) :
    res₁ = res₂ := by
  obtain ⟨n, hn⟩ := h₁
  obtain ⟨m, hm⟩ := h₂
  have h₁' := runLoop_mono hn (Nat.le_max_left n m)
  have h₂' := runLoop_mono hm (Nat.le_max_right n m)
  rw [h₁'] at h₂'
  exact Option.some.inj h₂'

theorem reaches_step {e : Effect Ev V} {stack log res e' s' evs}
    (hs : step e stack = .next e' s' evs)
    (h : Reaches e' s' (log ++ evs) res) : Reaches e stack log res := by
  obtain ⟨n, hn⟩ := h
  exact ⟨n + 1, by rw [runLoop, hs]; exact hn⟩

theorem reaches_of_step_eq {e₁ e₂ : Effect Ev V} {stack₁ stack₂ log res}
    (hs : step e₁ stack₁ = step e₂ stack₂)
    (h : Reaches e₂ stack₂ log res) : Reaches e₁ stack₁ log res := by
  obtain ⟨n, hn⟩ := h
  cases n with
  | zero => simp [runLoop] at hn
  | succ m =>
      refine ⟨m + 1, ?_⟩
      rw [runLoop, hs]
      rw [runLoop] at hn
      exact hn

theorem noRaise_eval {e : Effect Ev V} (h : NoRaise e) :
    ∃ r, (evalE e).2 = .completed r := by
  induction h with
  | succeed => exact ⟨_, rfl⟩
  | sync hv =>
      obtain ⟨v, hv⟩ := hv
      exact ⟨.success v, by simp [evalE, hv]⟩
  | asyncE => exact ⟨_, rfl⟩
  | failE => exact ⟨_, rfl⟩
  | @flatMapE src kev k _ _ ihs ihk =>
      obtain ⟨r, hr⟩ := ihs
      rcases hsrc : evalE src with ⟨evs, o⟩
      rw [hsrc] at hr
      simp only at hr
      subst hr
      cases r with
      | success v =>
          obtain ⟨r', hr'⟩ := ihk v
          exact ⟨r', by simp only [evalE, hsrc]; simpa using hr'⟩
      | failure err =>
          exact ⟨.failure err, by simp only [evalE, hsrc]⟩
  | @recoverE src hev hnd _ _ ihs ihh =>
      obtain ⟨r, hr⟩ := ihs
      rcases hsrc : evalE src with ⟨evs, o⟩
      rw [hsrc] at hr
      simp only at hr
      subst hr
      cases r with
      | success v =>
          exact ⟨.success v, by simp only [evalE, hsrc]⟩
      | failure err =>
          obtain ⟨r', hr'⟩ := ihh err
          exact ⟨r', by simp only [evalE, hsrc]; simpa using hr'⟩

theorem step_sync_ok {thunk : Unit → Except V V} {v : V} {s : List (Frame Ev V)}
    (hv : thunk () = .ok v) : step (.sync thunk) s = step (.succeed v) s := by
  rcases hnc : nextContinuation Ckind.success s with ⟨fr, rest⟩
  cases fr <;> simp [step, hv, hnc]

theorem step_async {r : Result V V} {s : List (Frame Ev V)} :
    step (.asyncE r) s = step (inject r : Effect Ev V) s := by
  cases r <;> rfl

theorem step_fail_skip_success {err : V} {kev : V → List Ev} {k : V → Effect Ev V}
    {s : List (Frame Ev V)} :
    step (.failE err) (⟨.success, kev, k⟩ :: s) = step (.failE err) s := by
  simp [step, nextContinuation]

theorem step_succeed_skip_failure {v : V} {hev : V → List Ev} {h : V → Effect Ev V}
    {s : List (Frame Ev V)} :
    step (.succeed v) (⟨.failure, hev, h⟩ :: s) = step (.succeed v) s := by
  simp [step, nextContinuation]

/-- Machine adequacy: for a raise-free Effect, running the loop from
`(e, s)` behaves like first fully evaluating `e` (appending its events to
the log) and then continuing the loop with its terminal `Result` injected
back as the current instruction, against the same continuation stack. -/
theorem runLoop_adequacy {e : Effect Ev V} (hnr : NoRaise e) :
    ∀ {evs : List Ev} {r : Result V V}, evalE e = (evs, .completed r) →
    ∀ {s : List (Frame Ev V)} {log : List Ev} {res : RunRes Ev V},
      Reaches (inject r) s (log ++ evs) res → Reaches e s log res := by
  induction hnr with
  | @succeed v =>
      intro evs r heval s log res hres
      simp only [evalE, Prod.mk.injEq] at heval
      obtain ⟨h1, h2⟩ := heval
      subst h1
      cases h2
      simpa [inject] using hres
  | @sync thunk hv =>
      intro evs r heval s log res hres
      obtain ⟨v, hv⟩ := hv
      simp only [evalE, hv, Prod.mk.injEq] at heval
      obtain ⟨h1, h2⟩ := heval
      subst h1
      cases h2
      rw [List.append_nil] at hres
      exact reaches_of_step_eq (step_sync_ok hv) hres
  | @asyncE r0 =>
      intro evs r heval s log res hres
      simp only [evalE, Prod.mk.injEq] at heval
      obtain ⟨h1, h2⟩ := heval
      subst h1
      cases h2
      rw [List.append_nil] at hres
      exact reaches_of_step_eq step_async hres
  | @failE err =>
      intro evs r heval s log res hres
      simp only [evalE, Prod.mk.injEq] at heval
      obtain ⟨h1, h2⟩ := heval
      subst h1
      cases h2
      simpa [inject] using hres
  | @flatMapE src kev k hs hk ihs ihk =>
      intro evs r heval s log res hres
      obtain ⟨r1, hr1⟩ := noRaise_eval hs
      rcases hsrc : evalE src with ⟨evs1, o1⟩
      rw [hsrc] at hr1
      simp only at hr1
      subst hr1
      apply reaches_step (show step (.flatMapE src kev k) s = .next src (⟨.success, kev, k⟩ :: s) [] from rfl)
      rw [List.append_nil]
      cases r1 with
      | success v =>
          rcases hkv : evalE (k v) with ⟨evs2, o2⟩
          rw [evalE.eq_def] at heval
          simp only [hsrc, hkv] at heval
          obtain ⟨h1, h2⟩ := Prod.mk.injEq .. ▸ heval
          subst h1
          subst h2
          apply ihs hsrc
          apply reaches_of_step_eq (Eq.symm (by rfl))
          apply reaches_step
            (show step (.succeed v) (⟨Ckind.success, kev, k⟩ :: s) = .next (k v) s (kev v) by
              simp [step, nextContinuation])
          apply ihk v hkv
          simpa [List.append_assoc] using hres
      | failure err =>
          rw [evalE.eq_def] at heval
          simp only [hsrc] at heval
          obtain ⟨h1, h2⟩ := Prod.mk.injEq .. ▸ heval
          subst h1
          cases h2
          apply ihs hsrc
          show Reaches (Effect.failE err) _ _ _
          exact reaches_of_step_eq step_fail_skip_success hres
  | @recoverE src hev hnd hs hh ihs ihh =>
      intro evs r heval s log res hres
      obtain ⟨r1, hr1⟩ := noRaise_eval hs
      rcases hsrc : evalE src with ⟨evs1, o1⟩
      rw [hsrc] at hr1
      simp only at hr1
      subst hr1
      apply reaches_step (show step (.recoverE src hev hnd) s = .next src (⟨.failure, hev, hnd⟩ :: s) [] from rfl)
      rw [List.append_nil]
      cases r1 with
      | success v =>
          rw [evalE.eq_def] at heval
          simp only [hsrc] at heval
          obtain ⟨h1, h2⟩ := Prod.mk.injEq .. ▸ heval
          subst h1
          cases h2
          apply ihs hsrc
          show Reaches (Effect.succeed v) _ _ _
          exact reaches_of_step_eq step_succeed_skip_failure hres
      | failure err =>
          rcases hherr : evalE (hnd err) with ⟨evs2, o2⟩
          rw [evalE.eq_def] at heval
          simp only [hsrc, hherr] at heval
          obtain ⟨h1, h2⟩ := Prod.mk.injEq .. ▸ heval
          subst h1
          subst h2
          apply ihs hsrc
          apply reaches_step
            (show step (.failE err) (⟨Ckind.failure, hev, hnd⟩ :: s) = .next (hnd err) s (hev err) by
              simp [step, nextContinuation])
          apply ihh err hherr
          simpa [List.append_assoc] using hres

/-- For a raise-free Effect, one invocation of `run` (empty stack, empty
log) terminates and invokes the completion callback with the denoted
`Result`, having emitted the denoted events. -/
theorem noRaise_terminates {e : Effect Ev V} (hnr : NoRaise e)
    {evs : List Ev} {r : Result V V} (heval : evalE e = (evs, .completed r)) :
    Reaches e [] [] (.completed r evs) := by
  apply runLoop_adequacy hnr heval
  refine ⟨1, ?_⟩
  cases r <;> simp [runLoop, step, nextContinuation, inject]

theorem chain_runLoop :
    ∀ (n fuel : Nat) (s : List (Frame Unit Nat)) (log : List Unit),
      runLoop (2 * n + 1 + fuel) (chain n) s log = runLoop (1 + fuel) (.succeed n) s log := by
  intro n
  induction n with
  | zero => intro fuel s log; rfl
  | succ n ih =>
      intro fuel s log
      rw [show 2 * (n + 1) + 1 + fuel = (2 * n + 1 + (fuel + 1)) + 1 by omega]
      rw [runLoop]
      show runLoop (2 * n + 1 + (fuel + 1)) (chain n)
        (⟨Ckind.success, fun _ => [], fun x => Effect.succeed (x + 1)⟩ :: s) (log ++ []) = _
      rw [List.append_nil, ih]
      rw [show 1 + (fuel + 1) = (fuel + 1) + 1 by omega]
      rw [runLoop]
      show runLoop (fuel + 1) (Effect.succeed (n + 1)) s (log ++ []) = _
      rw [List.append_nil]
      rw [show fuel + 1 = 1 + fuel by omega]

/-- C1: a chain of `N` flatMap operations with no Async instruction
runs to completion for *every* `N` (so in particular for `N = 100000`),
with fuel — i.e. loop iterations — linear in `N`.  The interpreter
processes the FlatMap tree iteratively: `runLoop` is a single tail loop
over the non-recursive `step` function, so the native call-stack depth
during the run is a constant independent of `N`. -/
theorem c1_flatMap_chain_completes (N : Nat) :
    runLoop (2 * N + 1) (chain N) [] [] =
      some (RunRes.completed (Result.success N) []) := by
  have h := chain_runLoop N 0 [] []
  rw [Nat.add_zero] at h
  rw [h]
  rfl

/-- C2: for every Effect built from the six constructors in which every
Async starter delivers its result exactly once (built into the model) and
no Sync thunk raises (`NoRaise`), a single invocation of `run` invokes the
completion callback exactly once: the run terminates with a completion
(never zero invocations), and every terminal observation of the run is that
single completion (never a second, different one). -/
theorem c2_complete_exactly_once {Ev V : Type} (e : Effect Ev V) (hnr : NoRaise e) :
    ∃ r evs, Reaches e [] [] (RunRes.completed r evs) ∧
      ∀ res, Reaches e [] [] res → res = RunRes.completed r evs := by
  obtain ⟨r, hr⟩ := noRaise_eval hnr
  rcases heval : evalE e with ⟨evs, o⟩
  rw [heval] at hr
  simp only at hr
  subst hr
  refine ⟨r, evs, noRaise_terminates hnr heval, ?_⟩
  intro res hres
  exact reaches_unique hres (noRaise_terminates hnr heval)

theorem c2_complete_exactly_once_witness :
    ∃ r evs,
      Reaches (.flatMapE (.sync fun _ => .ok 1) (fun _ => [])
          (fun v => .asyncE (.success (v + 1))) : Effect Unit Nat) [] []
        (RunRes.completed r evs) ∧
      ∀ res,
        Reaches (.flatMapE (.sync fun _ => .ok 1) (fun _ => [])
            (fun v => .asyncE (.success (v + 1))) : Effect Unit Nat) [] [] res →
          res = RunRes.completed r evs :=
  c2_complete_exactly_once _
    (NoRaise.flatMapE (NoRaise.sync ⟨1, rfl⟩) (fun _ => NoRaise.asyncE))

/-- C3: flatMap is associative with respect to observable outcomes.
`effect.flatMap(f).flatMap(g)` and `effect.flatMap(a => f(a).flatMap(g))`
have the same denotation (same terminal outcome and same emitted events),
and — whenever the involved effects are raise-free, so that the runs
complete — running either one delivers the same terminal `Result` to the
completion callback. -/
theorem c3_flatMap_assoc {Ev V : Type} (e : Effect Ev V)
    (fev : V → List Ev) (f : V → Effect Ev V)
    (gev : V → List Ev) (g : V → Effect Ev V) :
    evalE (.flatMapE (.flatMapE e fev f) gev g)
      = evalE (.flatMapE e fev (fun a => .flatMapE (f a) gev g)) ∧
    (NoRaise e → (∀ a, NoRaise (f a)) → (∀ a, NoRaise (g a)) →
      ∃ r evs,
        Reaches (.flatMapE (.flatMapE e fev f) gev g) [] [] (RunRes.completed r evs) ∧
        Reaches (.flatMapE e fev (fun a => .flatMapE (f a) gev g)) [] []
          (RunRes.completed r evs)) := by
  have heq : evalE (.flatMapE (.flatMapE e fev f) gev g)
      = evalE (.flatMapE e fev (fun a => .flatMapE (f a) gev g)) := by
    rcases he : evalE e with ⟨evs0, o0⟩
    cases o0 with
    | completed r0 =>
        cases r0 with
        | success v =>
            rcases hf : evalE (f v) with ⟨evs1, o1⟩
            cases o1 with
            | completed r1 =>
                cases r1 with
                | success w =>
                    rcases hg : evalE (g w) with ⟨evs2, o2⟩
                    simp [evalE, he, hf, hg, List.append_assoc]
                | failure err => simp [evalE, he, hf]
            | raised err => simp [evalE, he, hf]
        | failure err => simp [evalE, he]
    | raised err => simp [evalE, he]
  refine ⟨heq, ?_⟩
  intro hne hnf hng
  have hnL : NoRaise (.flatMapE (.flatMapE e fev f) gev g) :=
    NoRaise.flatMapE (NoRaise.flatMapE hne hnf) hng
  obtain ⟨r, hr⟩ := noRaise_eval hnL
  rcases heval : evalE (.flatMapE (.flatMapE e fev f) gev g) with ⟨evs, o⟩
  rw [heval] at hr
  simp only at hr
  subst hr
  have hnR : NoRaise (.flatMapE e fev (fun a => .flatMapE (f a) gev g)) :=
    NoRaise.flatMapE hne (fun a => NoRaise.flatMapE (hnf a) hng)
  refine ⟨r, evs, noRaise_terminates hnL heval, noRaise_terminates hnR ?_⟩
  rw [← heq]
  exact heval

theorem c3_flatMap_assoc_witness :
    ∃ r evs,
      Reaches (.flatMapE (.flatMapE (.succeed 1) (fun _ => [])
          (fun a => .succeed (a + 1))) (fun _ => [])
          (fun b => .succeed (b * 2)) : Effect Unit Nat) [] []
        (RunRes.completed r evs) ∧
      Reaches (.flatMapE (.succeed 1) (fun _ => [])
          (fun a => .flatMapE (.succeed (a + 1)) (fun _ => [])
            (fun b => .succeed (b * 2))) : Effect Unit Nat) [] []
        (RunRes.completed r evs) :=
  (c3_flatMap_assoc (.succeed 1) (fun _ => []) (fun a => .succeed (a + 1))
      (fun _ => []) (fun b => .succeed (b * 2))).2
    NoRaise.succeed (fun _ => NoRaise.succeed) (fun _ => NoRaise.succeed)

/-- C9: running `Fail(e).recover(h)` terminates by delivering
`success(h(e))` to the completion callback (in three loop iterations:
Recover pushes the failure continuation, Fail pops it, the resulting
Succeed completes). -/
theorem c9_fail_recover {Ev V : Type} (err : V) (h : V → V) :
    runLoop 3 (recoverEff (.failE err) h : Effect Ev V) [] []
      = some (RunRes.completed (Result.success (h err)) []) := by
  simp [recoverEff, runLoop, step, nextContinuation]

/-- C7 counterexample: processing a Sync instruction whose thunk raises,
with one success continuation pending, the interpreter (`src/run.ts` lines
33-34: `const next = stack.nextSuccess(); const result = syncEffect.f();`)
has already popped the stack empty when the raise happens, while the claim
(thunk evaluated first, stack still unchanged) would leave the entry in
place.  The two observable raise states differ. -/
theorem c7_sync_pop_order_counterexample :
    step (.sync fun _ => .error 5)
        [⟨Ckind.success, fun _ => [], fun v => Effect.succeed v⟩]
      = (StepRes.raised 5 [] : StepRes Unit Nat) ∧
    stepSyncSpec (fun _ => .error 5)
        [⟨Ckind.success, fun _ => [], fun v => Effect.succeed v⟩]
      = (StepRes.raised 5
          [⟨Ckind.success, fun _ => [], fun v => Effect.succeed v⟩] : StepRes Unit Nat) ∧
    (StepRes.raised 5 ([] : List (Frame Unit Nat)) ≠
      StepRes.raised 5 [⟨Ckind.success, fun _ => [], fun v => Effect.succeed v⟩]) := by
  refine ⟨rfl, rfl, ?_⟩
  intro hcontra
  injection hcontra with h1 h2
  simp at h2

/-- C7 amended: when the interpreter processes a Sync instruction it
first pops `nextSuccess` from the continuation stack and only then
evaluates the thunk; hence if the thunk raises, the matching success entry
and every entry scanned over have already been removed — the propagated
raise leaves exactly the post-scan stack behind. -/
theorem c7_sync_pops_before_thunk {Ev V : Type} (thunk : Unit → Except V V)
    (stack : List (Frame Ev V)) (err : V) (hth : thunk () = .error err) :
    step (.sync thunk) stack = .raised err (nextContinuation Ckind.success stack).2 := by
  rcases hnc : nextContinuation Ckind.success stack with ⟨fr, rest⟩
  cases fr <;> simp [step, hth, hnc]

theorem c7_sync_pops_before_thunk_witness :
    step (.sync fun _ => .error 3) ([] : List (Frame Unit Nat))
      = .raised 3 (nextContinuation Ckind.success ([] : List (Frame Unit Nat))).2 :=
  c7_sync_pops_before_thunk (fun _ => .error 3) [] 3 rfl

/-- C8: `nextContinuation` (hence `nextSuccess()` / `nextFailure()`,
which instantiate the requested kind) pops entries from the top, discarding
every entry whose kind does not match, and returns the first matching entry
together with the stack below it; if no entry matches it returns none and
leaves the stack empty.  So a failure jumps over all pending success
handlers to the nearest failure handler, and symmetrically. -/
theorem c8_nextContinuation_scan {Ev V : Type} (ty : Ckind) (s : List (Frame Ev V)) :
    (∃ pre fr rest, s = pre ++ fr :: rest ∧ (∀ x ∈ pre, x.kind ≠ ty) ∧
      fr.kind = ty ∧ nextContinuation ty s = (some fr, rest)) ∨
    ((∀ x ∈ s, x.kind ≠ ty) ∧ nextContinuation ty s = (none, [])) := by
  induction s with
  | nil => right; exact ⟨by simp, rfl⟩
  | cons fr rest ih =>
      by_cases hk : fr.kind = ty
      · left
        exact ⟨[], fr, rest, by simp, by simp, hk, by simp [nextContinuation, hk]⟩
      · rcases ih with ⟨pre, fr', rest', hs, hpre, hfr', hnc⟩ | ⟨hall, hnc⟩
        · left
          refine ⟨fr :: pre, fr', rest', by simp [hs], ?_, hfr', by simp [nextContinuation, hk, hnc]⟩
          intro x hx
          rcases List.mem_cons.mp hx with hx | hx
          · exact hx ▸ hk
          · exact hpre x hx
        · right
          refine ⟨?_, by simp [nextContinuation, hk, hnc]⟩
          intro x hx
          rcases List.mem_cons.mp hx with hx | hx
          · exact hx ▸ hk
          · exact hall x hx

/-- C6: running `manage(acquire, release, f)` emits the release event
exactly once whenever `acquire` succeeds — whether the body effect
succeeds or fails, or `f` raises synchronously before yielding an effect —
and the release event is never emitted when `acquire` itself fails.
(The acquire and body effects are taken to emit no events of their own, so
the run's event list is exactly the `release` calls.) -/
theorem c6_manage_release_once {Ev V : Type} (acquire : Effect Ev V)
    (releaseEv : V → Ev) (f : V → Except V (Effect Ev V)) :
    (∀ a body r, evalE acquire = ([], .completed (.success a)) →
      f a = .ok body → evalE body = ([], .completed r) →
      evalE (manage acquire releaseEv f) = ([releaseEv a], .completed r)) ∧
    (∀ a err, evalE acquire = ([], .completed (.success a)) →
      f a = .error err →
      evalE (manage acquire releaseEv f) = ([releaseEv a], .completed (.failure err))) ∧
    (∀ errA, evalE acquire = ([], .completed (.failure errA)) →
      evalE (manage acquire releaseEv f) = ([], .completed (.failure errA))) := by
  refine ⟨?_, ?_, ?_⟩
  · intro a body r hacq hf hbody
    cases r with
    | success b => simp [manage, mapEff, mapErrorEff, evalE, hacq, hf, hbody]
    | failure e => simp [manage, mapEff, mapErrorEff, evalE, hacq, hf, hbody]
  · intro a err hacq hf
    simp [manage, evalE, hacq, hf]
  · intro errA hacq
    simp [manage, evalE, hacq]

theorem c6_manage_release_once_witness :
    evalE (manage (.succeed 1) (fun a => a)
        (fun _ => .ok (.succeed 2)) : Effect Nat Nat)
      = ([1], .completed (.success 2)) :=
  (c6_manage_release_once (.succeed 1) (fun a => a)
      (fun _ => .ok (.succeed 2))).1 1 (.succeed 2) (.success 2) rfl rfl rfl

/-- C4 counterexample: two children that both succeed, with the second
child's callback firing first (child 0 async, child 1 synchronous).  The
aggregate completes with `success([2,1])` — the values in completion
order — not `success([1,2])` in input order as the claim states. -/
theorem c4_input_order_counterexample :
    (allRun [Result.success 1, Result.success 2] [1, 0] : AllState Nat).calls
      = [Result.success [2, 1]] ∧
    (Result.success [2, 1] : Result Nat (List Nat)) ≠ Result.success [1, 2] := by
  constructor
  · rfl
  · decide

theorem allProcess_success_inv {V : Type} (n : Nat) :
    ∀ (vals : List V) (st : AllState V), st.hasFailed = false →
      st.buffer.length + vals.length = n → vals ≠ [] →
      allProcess n st (vals.map Result.success)
        = ⟨false, st.buffer ++ vals, st.calls ++ [Result.success (st.buffer ++ vals)]⟩ := by
  intro vals
  induction vals with
  | nil => intro st _ _ hne; exact absurd rfl hne
  | cons v vs ih =>
      intro st hsf hlen hne
      show allProcess n (allCallback n st (.success v)) (vs.map Result.success) = _
      cases vs with
      | nil =>
          have hbuf : (st.buffer ++ [v]).length = n := by simp; simpa using hlen
          show allCallback n st (.success v) = _
          simp [allCallback, hsf, hbuf]
      | cons w ws =>
          have hlen' : st.buffer.length + (ws.length + 2) = n := by
            simpa [List.length_cons] using hlen
          have hbuf : ¬(st.buffer.length + 1 = n) := by omega
          have hst' : allCallback n st (.success v)
              = ⟨false, st.buffer ++ [v], st.calls⟩ := by
            simp [allCallback, hsf, hbuf]
          rw [hst']
          rw [ih ⟨false, st.buffer ++ [v], st.calls⟩ rfl
            (by simp only [List.length_append, List.length_cons, List.length_nil]; omega)
            (by simp)]
          simp

/-- C4 amended: the aggregate built by `all` buffers successes in the
order in which the children's completions *arrive*, and — when every child
succeeds — completes exactly once with `success` of the buffered values in
that arrival order.  Synchronous children complete during the `forEach` in
input order, so for them (in particular `all([succeed(1), succeed(2)])`,
which completes with `success([1,2])`) arrival order coincides with input
order; an Async child that completes late makes the buffer deviate from
input order. -/
theorem c4_all_success_arrival_order {V : Type} (n : Nat) (vals : List V)
    (hn : vals.length = n) (hne : vals ≠ []) :
    (allProcess n ⟨false, [], []⟩ (vals.map Result.success)).calls
      = [Result.success vals] := by
  rw [allProcess_success_inv n vals ⟨false, [], []⟩ rfl (by simpa using hn) hne]
  simp

theorem c4_all_success_arrival_order_witness :
    (allProcess 2 ⟨false, [], []⟩
        ([1, 2].map Result.success) : AllState Nat).calls
      = [Result.success [1, 2]] :=
  c4_all_success_arrival_order 2 [1, 2] rfl (by simp)

/-- C5 counterexample: two children that both fail.  After the first
failure has completed the aggregate with `failure(7)`, the later-arriving
sibling failure is *not* discarded: the failure branch of `all`'s callback
invokes `completeAll` unconditionally, so the completion callback is
invoked a second time with `failure(8)`. -/
theorem c5_second_failure_counterexample :
    (allRun [Result.failure 7, Result.failure 8] [0, 1] : AllState Nat).calls
      = [Result.failure 7, Result.failure 8] ∧
    ((allRun [Result.failure 7, Result.failure 8] [0, 1] : AllState Nat).calls).length ≠ 1 := by
  constructor
  · rfl
  · decide

/-- C5 amended: once the aggregate built by `all` has failed
(`hasFailed` set), every later-arriving sibling *success* is discarded —
the state, including the list of `completeAll` invocations, is unchanged —
but a later-arriving sibling *failure* is not discarded: it invokes the
completion callback once more with its own error (and leaves `hasFailed`
set). -/
theorem c5_after_failure_discards_successes {V : Type} (n : Nat)
    (st : AllState V) (a err : V) (hf : st.hasFailed = true) :
    allCallback n st (.success a) = st ∧
    (allCallback n st (.failure err)).calls = st.calls ++ [.failure err] ∧
    (allCallback n st (.failure err)).hasFailed = true := by
  refine ⟨by simp [allCallback, hf], by simp [allCallback], by simp [allCallback]⟩

theorem c5_after_failure_discards_successes_witness :
    allCallback 2 (⟨true, [], [Result.failure 7]⟩ : AllState Nat) (.success 5)
        = ⟨true, [], [Result.failure 7]⟩ ∧
    (allCallback 2 (⟨true, [], [Result.failure 7]⟩ : AllState Nat) (.failure 8)).calls
        = [Result.failure 7] ++ [Result.failure 8] ∧
    (allCallback 2 (⟨true, [], [Result.failure 7]⟩ : AllState Nat) (.failure 8)).hasFailed
        = true :=
  c5_after_failure_discards_successes 2 ⟨true, [], [Result.failure 7]⟩ 5 8 rfl

/-- C10: for a promise that rejects, the effect built by `fromPromise`
never invokes its completion callback — the rejection handler constructs a
failure value but does not pass it on, so the run never terminates with a
`Result` (zero `complete` invocations), in contrast with the resolution
path, which completes exactly once. -/
theorem c10_fromPromise_reject_silent {V : Type} (err : V) :
    fromPromiseCompleteCalls (Result.failure err) = ([] : List (Result V V)) ∧
    ∀ a : V, fromPromiseCompleteCalls (Result.success a) = [Result.success a] := by
  exact ⟨rfl, fun a => rfl⟩
